import Mathlib

/-!
Verification of the occupation scoring and ranking scripts.

The development embeds the ranking arithmetic of scripts/score_occupations.py
(weighted composite over optional normalized components, decline penalty,
growth boost), the openings normalizer (natural log followed by global
min-max normalization), the resumable batch scorer of main, and the
cache-backed enrichment loop of scripts/enrich_onet.py.

Scores and weights are Python floats in the source; they are embedded as
exact rationals for the per-record arithmetic, and as real numbers where
the natural logarithm is involved.
-/

/- ── Ranking configuration (score_occupations.py lines 47-58) ── -/

def W_RESILIENCE : ℚ := 1/2

def W_GROWTH : ℚ := 3/10

def W_OPENINGS : ℚ := 1/5

def GROWTH_MAP : List (String × ℚ) :=
  [("Decline (-1% or lower)", 0),
   ("Little or no change", 1/5),
   ("Slower than average (1% to 2%)", 2/5),
   ("Average (3% to 4%)", 3/5),
   ("Faster than average (5% to 6%)", 4/5),
   ("Much faster than average (7% or higher)", 1)]

/-- Dictionary lookup GROWTH_MAP.get(growth_text) (line 179). -/
def growthNorm (s : String) : Option ℚ :=
  GROWTH_MAP.lookup s

/-- Normalized resilience: (float(score_str) - 1.0) / 4.0 when the score
string is nonempty, else None (line 178). -/
def r_norm (score : Option ℚ) : Option ℚ :=
  score.map (fun s => (s - 1) / 4)

/-- The parts list built by lines 183-192: each present component times its
weight, in the fixed resilience, growth, openings order. -/
def partsList (rn gn onorm : Option ℚ) : List ℚ :=
  (match rn with | some r => [r * W_RESILIENCE] | none => []) ++
  (match gn with | some g => [g * W_GROWTH] | none => []) ++
  (match onorm with | some o => [o * W_OPENINGS] | none => [])

/-- The weights list built by lines 183-192: the weight of each present
component. -/
def weightsList (rn gn onorm : Option ℚ) : List ℚ :=
  (match rn with | some _ => [W_RESILIENCE] | none => []) ++
  (match gn with | some _ => [W_GROWTH] | none => []) ++
  (match onorm with | some _ => [W_OPENINGS] | none => [])

/-- Line 194: sum(parts) / sum(weights) * (W_RESILIENCE + W_GROWTH +
W_OPENINGS) if weights else 0.0. -/
def raw_score (rn gn onorm : Option ℚ) : ℚ :=
  if weightsList rn gn onorm = [] then 0
  else (partsList rn gn onorm).sum / (weightsList rn gn onorm).sum
        * (W_RESILIENCE + W_GROWTH + W_OPENINGS)

/-- The spec formula for the composite, written from the spec text: sum over
present components of component times weight, divided by the sum of the
weights of the present components, multiplied by the sum of all three
weights; 0 when no component is present. -/
def compositeOfSpec (rn gn onorm : Option ℚ) : ℚ :=
  let comps : List (ℚ × ℚ) :=
    (match rn with | some r => [(r, W_RESILIENCE)] | none => []) ++
    (match gn with | some g => [(g, W_GROWTH)] | none => []) ++
    (match onorm with | some o => [(o, W_OPENINGS)] | none => [])
  if comps = [] then 0
  else ((comps.map (fun c => c.1 * c.2)).sum / (comps.map Prod.snd).sum)
        * (W_RESILIENCE + W_GROWTH + W_OPENINGS)

/-- Guard of the decline penalty (line 197): score string nonempty, score
below 2.0, growth text exactly the decline label. -/
def declineCond (score : Option ℚ) (growth : String) : Bool :=
  match score with
  | some s => decide (s < 2) && (growth == "Decline (-1% or lower)")
  | none => false

/-- Guard of the growth boost (lines 201-204): score string nonempty, score
at least 4.0, growth text one of the two fastest labels. -/
def boostCond (score : Option ℚ) (growth : String) : Bool :=
  match score with
  | some s => decide (4 ≤ s) &&
      ((growth == "Faster than average (5% to 6%)") ||
       (growth == "Much faster than average (7% or higher)"))
  | none => false

/-- Lines 196-205 applied to the raw composite: first the decline penalty
caps at 0.20, then the growth boost adds 0.05 capped at 1.0, the boost
reading the post-penalty value. -/
def final_score (score : Option ℚ) (growth : String) (raw : ℚ) : ℚ :=
  let r1 := if declineCond score growth then min raw (1/5) else raw
  if boostCond score growth then min (r1 + 1/20) 1 else r1

/-- Spec reading of the adjustments: penalty and boost each evaluated
against the same pre-adjustment composite. -/
def final_score_spec (score : Option ℚ) (growth : String) (raw : ℚ) : ℚ :=
  if declineCond score growth then min raw (1/5)
  else if boostCond score growth then min (raw + 1/20) 1
  else raw

/- Sanity examples for the embedding. -/

example : growthNorm "Average (3% to 4%)" = some (3/5) := rfl

example : growthNorm "unknown" = none := rfl

example : r_norm (some 3) = some ((3 - 1) / 4 : ℚ) := rfl

/-- Evaluation of the composite when all three components are present. -/
lemma raw_score_all_present (a b c : ℚ) :
    raw_score (some a) (some b) (some c)
        = (a * W_RESILIENCE + b * W_GROWTH + c * W_OPENINGS)
          / (W_RESILIENCE + W_GROWTH + W_OPENINGS)
          * (W_RESILIENCE + W_GROWTH + W_OPENINGS) := by
  rw [raw_score, if_neg (by simp [weightsList])]
  simp [partsList, weightsList]
  left
  ring

/-- Shared evaluation of the composite at the concrete record of the spec
example: resilience 3.0, growth Average, normalized openings 0.5. -/
lemma raw_score_spec_example :
    raw_score (r_norm (some 3)) (growthNorm "Average (3% to 4%)") (some (1/2))
        = 53/100 := by
  have hg : growthNorm "Average (3% to 4%)" = some (3/5) := rfl
  have hr : r_norm (some 3) = some ((3 - 1) / 4 : ℚ) := rfl
  rw [hg, hr, raw_score_all_present]
  norm_num [W_RESILIENCE, W_GROWTH, W_OPENINGS]

/-- C1 counterexample: a record with all three signals present, resilience
3.0, growth label Average and normalized openings 0.5 has composite 0.53,
not 0.63 as claimed. -/
theorem c1_composite_counterexample :
    raw_score (r_norm (some 3)) (growthNorm "Average (3% to 4%)") (some (1/2))
        = 53/100 ∧
    raw_score (r_norm (some 3)) (growthNorm "Average (3% to 4%)") (some (1/2))
        ≠ 63/100 := by
  rw [raw_score_spec_example]
  norm_num

/-- C1 amended: for every record the composite is the sum over present
components of component times weight, divided by the sum of the weights of
the present components, multiplied by the sum of all three weights, with
composite 0 when no component is present; and the concrete record of the
claim (resilience 3.0, growth Average, normalized openings 0.5) has
composite 0.53. -/
theorem c1_composite_formula :
    (∀ rn gn onorm : Option ℚ,
        raw_score rn gn onorm = compositeOfSpec rn gn onorm) ∧
    raw_score none none none = 0 ∧
    raw_score (r_norm (some 3)) (growthNorm "Average (3% to 4%)") (some (1/2))
        = 53/100 := by
  refine ⟨?_, ?_, raw_score_spec_example⟩
  · intro rn gn onorm
    cases rn <;> cases gn <;> cases onorm <;>
      simp [raw_score, compositeOfSpec, partsList, weightsList]
  · simp [raw_score, weightsList]

/-- C3: a present resilience score below 2.0 with the exact decline growth
label makes the final composite min(composite, 0.20), hence at most 0.20,
for every openings component. -/
theorem c3_decline_penalty_cap (s : ℚ) (onorm : Option ℚ) (hs : s < 2) :
    final_score (some s) "Decline (-1% or lower)"
        (raw_score (r_norm (some s)) (growthNorm "Decline (-1% or lower)") onorm)
      = min (raw_score (r_norm (some s)) (growthNorm "Decline (-1% or lower)") onorm)
            (1/5) ∧
    final_score (some s) "Decline (-1% or lower)"
        (raw_score (r_norm (some s)) (growthNorm "Decline (-1% or lower)") onorm)
      ≤ 1/5 := by
  have hd : declineCond (some s) "Decline (-1% or lower)" = true := by
    simp [declineCond, hs]
  have hb : boostCond (some s) "Decline (-1% or lower)" = false := by
    simp [boostCond]
  refine ⟨by simp [final_score, hd, hb], ?_⟩
  simp [final_score, hd, hb]

/-- C3 witness at resilience 1.5 with openings present. -/
theorem c3_decline_penalty_cap_witness :
    final_score (some (3/2)) "Decline (-1% or lower)"
        (raw_score (r_norm (some (3/2))) (growthNorm "Decline (-1% or lower)")
          (some 1))
      ≤ 1/5 :=
  (c3_decline_penalty_cap (3/2) (some 1) (by norm_num)).2

/-- C4: a present resilience score of at least 4.0 with one of the two
fastest growth labels makes the final composite min(composite + 0.05, 1.0). -/
theorem c4_growth_boost (s : ℚ) (g : String) (raw : ℚ) (hs : 4 ≤ s)
    (hg : g = "Faster than average (5% to 6%)" ∨
          g = "Much faster than average (7% or higher)") :
    final_score (some s) g raw = min (raw + 1/20) 1 := by
  have hd : declineCond (some s) g = false := by
    rcases hg with h | h <;> subst h <;> simp [declineCond]
  have hb : boostCond (some s) g = true := by
    rcases hg with h | h <;> subst h <;> simp [boostCond, hs]
  simp [final_score, hd, hb]

/-- C4 witness at resilience 4.5, growth much faster, composite 0.5. -/
theorem c4_growth_boost_witness :
    final_score (some (9/2)) "Much faster than average (7% or higher)" (1/2)
      = min ((1:ℚ)/2 + 1/20) 1 :=
  c4_growth_boost (9/2) "Much faster than average (7% or higher)" (1/2)
    (by norm_num) (Or.inr rfl)

/-- C5: applying penalty then boost sequentially as the code does agrees
with evaluating both adjustments against the same pre-adjustment composite,
because the two trigger conditions can never both hold. -/
theorem c5_sequential_eq_parallel :
    (∀ (score : Option ℚ) (growth : String) (raw : ℚ),
        final_score score growth raw = final_score_spec score growth raw) ∧
    (∀ (score : Option ℚ) (growth : String),
        declineCond score growth = false ∨ boostCond score growth = false) := by
  have hexcl : ∀ (score : Option ℚ) (growth : String),
      declineCond score growth = false ∨ boostCond score growth = false := by
    intro score growth
    cases hd : declineCond score growth
    · exact Or.inl rfl
    · refine Or.inr ?_
      cases hb : boostCond score growth
      · rfl
      · exfalso
        cases score with
        | none => simp [declineCond] at hd
        | some s =>
          simp [declineCond] at hd
          simp [boostCond] at hb
          linarith [hd.1, hb.1]
  refine ⟨?_, hexcl⟩
  intro score growth raw
  by_cases hd : declineCond score growth = true
  · have hb : boostCond score growth = false := by
      rcases hexcl score growth with h | h
      · rw [hd] at h
        cases h
      · exact h
    simp [final_score, final_score_spec, hd, hb]
  · have hd' : declineCond score growth = false := by
      cases hbe : declineCond score growth
      · rfl
      · exact absurd hbe hd
    simp [final_score, final_score_spec, hd']

/- ── Resumable batch scorer (score_occupations.py, main and helpers) ── -/

/-- An input occupation row of the O*NET CSV, restricted to the columns the
batch scorer reads. -/
structure Occ where
  code : String
  occupation : String
  jobZone : String
  dataLevel : String
deriving DecidableEq, Repr

/-- load_occupations (lines 65-72): keep the rows whose Job Zone is neither
the string n/a nor empty and whose Data-level is Y. -/
def load_occupations (rows : List Occ) : List Occ :=
  rows.filter (fun r => r.jobZone != "n/a" && r.jobZone != "" && r.dataLevel == "Y")

/-- One element of the JSON array the scoring collaborator returns. -/
structure ScoreResult where
  onet_code : String
  ai_proof_score : ℚ
  key_drivers : String
deriving DecidableEq, Repr

/-- Outcome of one dispatch to the scoring collaborator (lines 255-285):
a raw response text, a rate-limit signal, or any other dispatch error. -/
inductive ApiOutcome where
  | ok (raw : String)
  | rateLimited
  | apiError
deriving DecidableEq, Repr

/-- load_scored_codes (lines 126-131): the set of Code values of the rows
already present in the persisted output. -/
def load_scored_codes (outputRows : List ScoreResult) : List String :=
  outputRows.map (fun r => r.onet_code)

/-- Line 242: remaining[i:i+BATCH_SIZE] slices. Empty input gives no
batches; a zero size, which the script never uses, gives no batches. -/
def chunks (n : ℕ) (l : List Occ) : List (List Occ) :=
  if l = [] ∨ n = 0 then []
  else l.take n :: chunks n (l.drop n)
termination_by l.length
decreasing_by
  rename_i h
  push_neg at h
  simp only [List.length_drop]
  exact Nat.sub_lt (List.length_pos.mpr h.1) (Nat.pos_of_ne_zero h.2)

/-- The batch loop of main (lines 248-285): for each batch dispatch once;
on a parseable response append its results to the output, on a parse
failure, a rate limit or any other dispatch error skip the batch and
continue with the next one. -/
def runBatches (dispatch : List Occ → ApiOutcome)
    (parse : String → Option (List ScoreResult)) :
    List (List Occ) → List ScoreResult
  | [] => []
  | b :: bs =>
    match dispatch b with
    | ApiOutcome.ok raw =>
      match parse raw with
      | some rs => rs ++ runBatches dispatch parse bs
      | none => runBatches dispatch parse bs
    | ApiOutcome.rateLimited => runBatches dispatch parse bs
    | ApiOutcome.apiError => runBatches dispatch parse bs

/-- BATCH_SIZE (line 34). -/
def BATCH_SIZE : ℕ := 10

/-- The run of main (lines 226-295) as a function from the collaborator
behavior and the persisted state to the new persisted output and the
success flag: when client construction fails with an authentication error
the run returns False at once with the output untouched; otherwise the
scoreable records whose codes are not yet in the output are chunked and
processed, and results are appended to the output. -/
def mainRun (authOk : Bool) (dispatch : List Occ → ApiOutcome)
    (parse : String → Option (List ScoreResult))
    (inputRows : List Occ) (outputRows : List ScoreResult) :
    List ScoreResult × Bool :=
  let occupations := load_occupations inputRows
  let scored := load_scored_codes outputRows
  if authOk = false then (outputRows, false)
  else
    let remaining := occupations.filter (fun o => o.code ∉ scored)
    let batches := chunks BATCH_SIZE remaining
    (outputRows ++ runBatches dispatch parse batches, true)

/- ── Lemmas about chunks and runBatches ── -/

lemma runBatches_nil (dispatch : List Occ → ApiOutcome)
    (parse : String → Option (List ScoreResult)) :
    runBatches dispatch parse [] = [] := rfl

lemma runBatches_cons_ok_some {dispatch : List Occ → ApiOutcome}
    {parse : String → Option (List ScoreResult)} {b : List Occ}
    {raw : String} {rs : List ScoreResult} (bs : List (List Occ))
    (hd : dispatch b = ApiOutcome.ok raw) (hp : parse raw = some rs) :
    runBatches dispatch parse (b :: bs) = rs ++ runBatches dispatch parse bs := by
  rw [runBatches, hd]
  simp [hp]

lemma runBatches_cons_ok_none {dispatch : List Occ → ApiOutcome}
    {parse : String → Option (List ScoreResult)} {b : List Occ}
    {raw : String} (bs : List (List Occ))
    (hd : dispatch b = ApiOutcome.ok raw) (hp : parse raw = none) :
    runBatches dispatch parse (b :: bs) = runBatches dispatch parse bs := by
  rw [runBatches, hd]
  simp [hp]

lemma runBatches_cons_rateLimited {dispatch : List Occ → ApiOutcome}
    {parse : String → Option (List ScoreResult)} {b : List Occ}
    (bs : List (List Occ)) (hd : dispatch b = ApiOutcome.rateLimited) :
    runBatches dispatch parse (b :: bs) = runBatches dispatch parse bs := by
  rw [runBatches, hd]

lemma runBatches_cons_apiError {dispatch : List Occ → ApiOutcome}
    {parse : String → Option (List ScoreResult)} {b : List Occ}
    (bs : List (List Occ)) (hd : dispatch b = ApiOutcome.apiError) :
    runBatches dispatch parse (b :: bs) = runBatches dispatch parse bs := by
  rw [runBatches, hd]

/-- Concatenating the batch slices gives back the remaining list: the batch
scorer submits exactly the remaining records in their original order. -/
lemma chunks_flatten (n : ℕ) (hn : n ≠ 0) (l : List Occ) :
    (chunks n l).flatten = l := by
  have H : ∀ (m : ℕ) (l : List Occ), l.length ≤ m → (chunks n l).flatten = l := by
    intro m
    induction m with
    | zero =>
      intro l hl
      have hnil : l = [] := by
        cases l with
        | nil => rfl
        | cons a t => simp at hl
      subst hnil
      rw [chunks]
      simp
    | succ m ih =>
      intro l hl
      rw [chunks]
      by_cases h : l = []
      · simp [h]
      · rw [if_neg (by simp [h, hn])]
        rw [List.flatten_cons]
        rw [ih (l.drop n) (by
          simp only [List.length_drop]
          have hpos := Nat.pos_of_ne_zero hn
          omega)]
        exact List.take_append_drop n l
  exact H l.length l le_rfl

/-- Every record appearing in some batch slice is a remaining record. -/
lemma mem_of_mem_chunks {n : ℕ} (hn : n ≠ 0) {l : List Occ}
    {b : List Occ} (hb : b ∈ chunks n l) {x : Occ} (hx : x ∈ b) : x ∈ l := by
  have : x ∈ (chunks n l).flatten := List.mem_flatten.mpr ⟨b, hb, hx⟩
  rwa [chunks_flatten n hn] at this

/-- Every result produced by the batch loop comes from a parseable response
of a dispatched batch. -/
lemma mem_runBatches {dispatch : List Occ → ApiOutcome}
    {parse : String → Option (List ScoreResult)} :
    ∀ {bs : List (List Occ)} {r : ScoreResult},
      r ∈ runBatches dispatch parse bs →
      ∃ (j : ℕ) (hj : j < bs.length) (raw : String) (rs : List ScoreResult),
        dispatch (bs.get ⟨j, hj⟩) = ApiOutcome.ok raw ∧ parse raw = some rs ∧
        r ∈ rs := by
  intro bs
  induction bs with
  | nil => intro r h; simp [runBatches_nil] at h
  | cons b bs ih =>
    intro r h
    cases hd : dispatch b with
    | ok raw =>
      cases hp : parse raw with
      | some rs =>
        rw [runBatches_cons_ok_some bs hd hp] at h
        rcases List.mem_append.mp h with h1 | h2
        · exact ⟨0, by simp, raw, rs, hd, hp, h1⟩
        · obtain ⟨j, hj, raw2, rs2, h3, h4, h5⟩ := ih h2
          exact ⟨j + 1, by simpa using hj, raw2, rs2, h3, h4, h5⟩
      | none =>
        rw [runBatches_cons_ok_none bs hd hp] at h
        obtain ⟨j, hj, raw2, rs2, h3, h4, h5⟩ := ih h
        exact ⟨j + 1, by simpa using hj, raw2, rs2, h3, h4, h5⟩
    | rateLimited =>
      rw [runBatches_cons_rateLimited bs hd] at h
      obtain ⟨j, hj, raw2, rs2, h3, h4, h5⟩ := ih h
      exact ⟨j + 1, by simpa using hj, raw2, rs2, h3, h4, h5⟩
    | apiError =>
      rw [runBatches_cons_apiError bs hd] at h
      obtain ⟨j, hj, raw2, rs2, h3, h4, h5⟩ := ih h
      exact ⟨j + 1, by simpa using hj, raw2, rs2, h3, h4, h5⟩

/-- Dropping a batch whose response does not parse leaves the batch loop
output unchanged. -/
lemma runBatches_eraseIdx (dispatch : List Occ → ApiOutcome)
    (parse : String → Option (List ScoreResult)) :
    ∀ (bs : List (List Occ)) (k : ℕ) (hk : k < bs.length) (raw : String),
      dispatch (bs.get ⟨k, hk⟩) = ApiOutcome.ok raw → parse raw = none →
      runBatches dispatch parse bs = runBatches dispatch parse (bs.eraseIdx k) := by
  intro bs
  induction bs with
  | nil => intro k hk; simp at hk
  | cons b bs ih =>
    intro k hk raw hd hp
    cases k with
    | zero =>
      have hd0 : dispatch b = ApiOutcome.ok raw := hd
      rw [runBatches_cons_ok_none bs hd0 hp]
      simp [List.eraseIdx]
    | succ k =>
      have hk' : k < bs.length := by simpa using hk
      have hd' : dispatch (bs.get ⟨k, hk'⟩) = ApiOutcome.ok raw := hd
      have hrec := ih k hk' raw hd' hp
      simp only [List.eraseIdx_cons_succ]
      cases hdb : dispatch b with
      | ok raw2 =>
        cases hpb : parse raw2 with
        | some rs =>
          rw [runBatches_cons_ok_some bs hdb hpb,
            runBatches_cons_ok_some (bs.eraseIdx k) hdb hpb, hrec]
        | none =>
          rw [runBatches_cons_ok_none bs hdb hpb,
            runBatches_cons_ok_none (bs.eraseIdx k) hdb hpb, hrec]
      | rateLimited =>
        rw [runBatches_cons_rateLimited bs hdb,
          runBatches_cons_rateLimited (bs.eraseIdx k) hdb, hrec]
      | apiError =>
        rw [runBatches_cons_apiError bs hdb,
          runBatches_cons_apiError (bs.eraseIdx k) hdb, hrec]

/-- C2: with an output already holding some scored records, the scorer
submits exactly the scoreable records whose codes are absent from the
output, in their original relative order: the batches concatenate back to
the remaining list, the remaining list is an order-preserving sublist of
the scoreable records, its length is the number of scoreable records minus
the number already present, a record whose code is in the output is never
in the remaining list, and when every collaborator result carries a code of
its own batch, every row of the final output whose code was already scored
is one of the pre-existing rows. -/
theorem c2_resume_contract
    (dispatch : List Occ → ApiOutcome) (parse : String → Option (List ScoreResult))
    (inputRows : List Occ) (outputRows : List ScoreResult)
    (hsub : ∀ b raw rs, dispatch b = ApiOutcome.ok raw → parse raw = some rs →
        ∀ x ∈ rs, x.onet_code ∈ b.map Occ.code) :
    ((chunks BATCH_SIZE ((load_occupations inputRows).filter
        (fun o => o.code ∉ load_scored_codes outputRows))).flatten
      = (load_occupations inputRows).filter
          (fun o => o.code ∉ load_scored_codes outputRows)) ∧
    ((load_occupations inputRows).filter
        (fun o => o.code ∉ load_scored_codes outputRows)).Sublist
      (load_occupations inputRows) ∧
    (((load_occupations inputRows).filter
        (fun o => o.code ∉ load_scored_codes outputRows)).length
      + ((load_occupations inputRows).filter
          (fun o => o.code ∈ load_scored_codes outputRows)).length
      = (load_occupations inputRows).length) ∧
    (∀ o ∈ load_occupations inputRows, o.code ∈ load_scored_codes outputRows →
      o ∉ (load_occupations inputRows).filter
        (fun o => o.code ∉ load_scored_codes outputRows)) ∧
    (∀ r ∈ (mainRun true dispatch parse inputRows outputRows).1,
      r.onet_code ∈ load_scored_codes outputRows → r ∈ outputRows) := by
  refine ⟨chunks_flatten BATCH_SIZE (by norm_num [BATCH_SIZE]) _,
    List.filter_sublist _, ?_, ?_, ?_⟩
  · have hnot : (load_occupations inputRows).filter
        (fun o => o.code ∉ load_scored_codes outputRows)
        = (load_occupations inputRows).filter
            (fun o => !(decide (o.code ∈ load_scored_codes outputRows))) :=
      List.filter_congr (fun (o : Occ) _ => by simp)
    rw [hnot, add_comm]
    exact (List.length_eq_length_filter_add
      (fun (o : Occ) => decide (o.code ∈ load_scored_codes outputRows))).symm
  · intro o _ hmem hcontra
    rcases List.mem_filter.mp hcontra with ⟨_, hdec⟩
    simp at hdec
    exact hdec hmem
  · intro r hr hcode
    have hmain : (mainRun true dispatch parse inputRows outputRows).1
        = outputRows ++ runBatches dispatch parse
            (chunks BATCH_SIZE ((load_occupations inputRows).filter
              (fun o => o.code ∉ load_scored_codes outputRows))) := by
      simp [mainRun]
    rw [hmain] at hr
    rcases List.mem_append.mp hr with h1 | h2
    · exact h1
    · exfalso
      obtain ⟨j, hj, raw, rs, hdisp, hparse, hmem⟩ := mem_runBatches h2
      have hcodes := hsub _ _ _ hdisp hparse r hmem
      rcases List.mem_map.mp hcodes with ⟨o, ho, hoc⟩
      have hrem : o ∈ (load_occupations inputRows).filter
          (fun o => o.code ∉ load_scored_codes outputRows) :=
        mem_of_mem_chunks (n := BATCH_SIZE) (by norm_num [BATCH_SIZE])
          (List.get_mem _ j hj) ho
      rcases List.mem_filter.mp hrem with ⟨_, hdec⟩
      simp at hdec
      rw [hoc] at hdec
      exact hdec hcode

/-- C2 witness: a concrete run with one record already scored submits only
the other scoreable record. -/
theorem c2_resume_contract_witness :
    ((load_occupations [⟨"A", "a", "5", "Y"⟩, ⟨"B", "b", "5", "Y"⟩]).filter
        (fun o => o.code ∉ load_scored_codes [⟨"A", 2, "d"⟩])).length
      + ((load_occupations [⟨"A", "a", "5", "Y"⟩, ⟨"B", "b", "5", "Y"⟩]).filter
          (fun o => o.code ∈ load_scored_codes [⟨"A", 2, "d"⟩])).length
      = (load_occupations [⟨"A", "a", "5", "Y"⟩, ⟨"B", "b", "5", "Y"⟩]).length :=
  (c2_resume_contract (fun _ => ApiOutcome.apiError) (fun _ => none)
    [⟨"A", "a", "5", "Y"⟩, ⟨"B", "b", "5", "Y"⟩] [⟨"A", 2, "d"⟩]
    (fun _ _ _ _ hp => by cases hp)).2.2.1

/-- C8: a batch whose dispatched response fails to parse contributes
nothing: the run output equals the output of the run without that batch,
and no code of that batch appears in the output, provided collaborator
results carry codes of their own batch and the batches have pairwise
disjoint code lists. -/
theorem c8_parse_failure_skips_batch
    (dispatch : List Occ → ApiOutcome) (parse : String → Option (List ScoreResult))
    (batches : List (List Occ)) (k : ℕ) (hk : k < batches.length) (raw : String)
    (hdisp : dispatch (batches.get ⟨k, hk⟩) = ApiOutcome.ok raw)
    (hparse : parse raw = none)
    (hsub : ∀ b raw2 rs, dispatch b = ApiOutcome.ok raw2 → parse raw2 = some rs →
        ∀ x ∈ rs, x.onet_code ∈ b.map Occ.code)
    (hdisj : (batches.map (fun b => b.map Occ.code)).Pairwise List.Disjoint) :
    runBatches dispatch parse batches
        = runBatches dispatch parse (batches.eraseIdx k) ∧
    ∀ r ∈ runBatches dispatch parse batches,
      r.onet_code ∉ (batches.get ⟨k, hk⟩).map Occ.code := by
  refine ⟨runBatches_eraseIdx dispatch parse batches k hk raw hdisp hparse, ?_⟩
  intro r hr hbad
  obtain ⟨j, hj, raw2, rs, hdisp2, hparse2, hmem⟩ := mem_runBatches hr
  have hcodes := hsub _ _ _ hdisp2 hparse2 r hmem
  by_cases hjk : j = k
  · subst hjk
    rw [hdisp] at hdisp2
    cases hdisp2
    rw [hparse] at hparse2
    cases hparse2
  · rw [List.pairwise_iff_getElem] at hdisj
    have hj2 : j < (batches.map (fun b => b.map Occ.code)).length := by
      simpa using hj
    have hk2 : k < (batches.map (fun b => b.map Occ.code)).length := by
      simpa using hk
    rcases Nat.lt_or_ge j k with hlt | hge
    · have hd2 := hdisj j k hj2 hk2 hlt
      simp only [List.getElem_map] at hd2
      exact hd2 hcodes hbad
    · have hlt2 : k < j := lt_of_le_of_ne hge (fun he => hjk he.symm)
      have hd2 := hdisj k j hk2 hj2 hlt2
      simp only [List.getElem_map] at hd2
      exact hd2 hbad hcodes

/-- C9: an authentication failure while constructing the client aborts the
run at once with the persisted output untouched, while every dispatch-level
failure mode still lets the run finish. -/
theorem c9_auth_failure_aborts
    (dispatch : List Occ → ApiOutcome) (parse : String → Option (List ScoreResult))
    (inputRows : List Occ) (outputRows : List ScoreResult) :
    mainRun false dispatch parse inputRows outputRows = (outputRows, false) ∧
    (mainRun true dispatch parse inputRows outputRows).2 = true := by
  constructor
  · simp [mainRun]
  · simp [mainRun]

/- ── Concrete collaborator behavior used as a witness scenario ── -/

/-- Two singleton batches with distinct codes. -/
def wBatches : List (List Occ) :=
  [[⟨"A", "a", "5", "Y"⟩], [⟨"B", "b", "5", "Y"⟩]]

/-- A collaborator answering the first batch with unparseable text and the
second with a good response. -/
def wDispatch : List Occ → ApiOutcome := fun b =>
  if b.map Occ.code = ["A"] then ApiOutcome.ok "bad"
  else if b.map Occ.code = ["B"] then ApiOutcome.ok "good"
  else ApiOutcome.rateLimited

/-- A parser accepting only the good response. -/
def wParse : String → Option (List ScoreResult) := fun raw =>
  if raw = "good" then some [⟨"B", 3, "kd"⟩] else none

/-- C8 witness: in the concrete scenario the run output with the bad batch
present equals the output without it, and no code of the bad batch reaches
the output. -/
theorem c8_parse_failure_skips_batch_witness :
    runBatches wDispatch wParse wBatches
        = runBatches wDispatch wParse (wBatches.eraseIdx 0) ∧
    ∀ r ∈ runBatches wDispatch wParse wBatches,
      r.onet_code ∉ ((wBatches.get ⟨0, by decide⟩).map Occ.code) := by
  refine c8_parse_failure_skips_batch wDispatch wParse wBatches 0 (by decide)
    "bad" (by decide) (by decide) ?_ ?_
  case refine_2 =>
    have hmap : wBatches.map (fun b => b.map Occ.code) = [["A"], ["B"]] := rfl
    rw [hmap]
    refine List.pairwise_cons.mpr ⟨?_, List.pairwise_singleton _ _⟩
    intro l hl
    simp only [List.mem_singleton] at hl
    subst hl
    intro a ha hb
    simp only [List.mem_singleton] at ha hb
    subst ha
    simp at hb
  intro b raw2 rs h1 h2 x hx
  by_cases hg : raw2 = "good"
  · subst hg
    have hrs : rs = [⟨"B", 3, "kd"⟩] := by
      have : some (⟨"B", 3, "kd"⟩ :: []) = some rs := by
        simpa [wParse] using h2
      simpa using this.symm
    subst hrs
    simp only [List.mem_singleton] at hx
    subst hx
    by_cases hA : b.map Occ.code = ["A"]
    · simp [wDispatch, hA] at h1
    · by_cases hB : b.map Occ.code = ["B"]
      · simp [hB]
      · simp [wDispatch, hA, hB] at h1
  · simp [wParse, hg] at h2

/- ── Openings normalizer (compute_rankings, lines 155-180) ── -/

/-- Line 158: raw.replace with the comma removed. -/
def stripCommas (s : String) : String :=
  String.mk (s.data.filter (fun c => c ≠ ','))

/-- Decimal value of a digit string, as int() reads it. -/
def digitsToNat (l : List Char) : ℕ :=
  l.foldl (fun n c => n * 10 + (c.toNat - Char.toNat (Char.ofNat 48))) 0

/-- Lines 158-159: a value qualifies when the comma-stripped string is
nonempty, all digits, and the parsed integer is positive. -/
def parseOpenings (raw : String) : Option ℕ :=
  if (stripCommas raw).data ≠ [] ∧ (stripCommas raw).data.all (fun c => c.isDigit)
  then
    (if 0 < digitsToNat (stripCommas raw).data
     then some (digitsToNat (stripCommas raw).data) else none)
  else none

/-- Line 160: the natural log of a qualifying openings count, None for a
non-qualifying record. -/
noncomputable def logVal (raw : String) : Option ℝ :=
  (parseOpenings raw).map (fun n : ℕ => Real.log n)

/-- Lines 156-162: the per-row list of optional log openings. -/
noncomputable def logOpenings (openings : List String) : List (Option ℝ) :=
  openings.map logVal

/-- Line 164: the qualifying log values of the pass. -/
noncomputable def validLogs (openings : List String) : List ℝ :=
  (logOpenings openings).filterMap id

/-- Python min over a nonempty list, 0 on the empty list (never used on it
by the script). -/
noncomputable def listMin : List ℝ → ℝ
  | [] => 0
  | x :: xs => xs.foldl min x

/-- Python max over a nonempty list, 0 on the empty list. -/
noncomputable def listMax : List ℝ → ℝ
  | [] => 0
  | x :: xs => xs.foldl max x

/-- Lines 165-171: global minimum of the qualifying log values, defaulting
to 0 when none qualify. -/
noncomputable def log_min (openings : List String) : ℝ :=
  if validLogs openings = [] then 0 else listMin (validLogs openings)

/-- Lines 165-171: the normalization denominator: max minus min of the
qualifying log values when they differ, else 1; 1 when none qualify. -/
noncomputable def log_range (openings : List String) : ℝ :=
  if validLogs openings = [] then 1
  else if listMax (validLogs openings) ≠ listMin (validLogs openings)
    then listMax (validLogs openings) - listMin (validLogs openings)
    else 1

/-- Line 180: the normalized openings value of a record of the pass. -/
noncomputable def o_norm (openings : List String) (raw : String) : Option ℝ :=
  (logVal raw).map (fun v => (v - log_min openings) / log_range openings)

/- Facts about folded minima and maxima. -/

lemma foldl_min_le_init (l : List ℝ) : ∀ a : ℝ, l.foldl min a ≤ a := by
  induction l with
  | nil => intro a; simp
  | cons x xs ih =>
    intro a
    calc (x :: xs).foldl min a = xs.foldl min (min a x) := rfl
    _ ≤ min a x := ih (min a x)
    _ ≤ a := min_le_left _ _

lemma foldl_min_le_mem (l : List ℝ) :
    ∀ (a y : ℝ), y ∈ l → l.foldl min a ≤ y := by
  induction l with
  | nil => intro a y hy; simp at hy
  | cons x xs ih =>
    intro a y hy
    rcases List.mem_cons.mp hy with h | h
    · subst h
      calc (y :: xs).foldl min a = xs.foldl min (min a y) := rfl
      _ ≤ min a y := foldl_min_le_init xs _
      _ ≤ y := min_le_right _ _
    · exact ih (min a x) y h

lemma foldl_min_eq_init_or_mem (l : List ℝ) :
    ∀ a : ℝ, l.foldl min a = a ∨ l.foldl min a ∈ l := by
  induction l with
  | nil => intro a; left; rfl
  | cons x xs ih =>
    intro a
    rcases ih (min a x) with h | h
    · rcases min_choice a x with hc | hc
      · left
        calc (x :: xs).foldl min a = xs.foldl min (min a x) := rfl
        _ = min a x := h
        _ = a := hc
      · right
        apply List.mem_cons.mpr
        left
        calc (x :: xs).foldl min a = xs.foldl min (min a x) := rfl
        _ = min a x := h
        _ = x := hc
    · right
      exact List.mem_cons.mpr (Or.inr h)

lemma foldl_max_init_le (l : List ℝ) : ∀ a : ℝ, a ≤ l.foldl max a := by
  induction l with
  | nil => intro a; simp
  | cons x xs ih =>
    intro a
    calc a ≤ max a x := le_max_left _ _
    _ ≤ xs.foldl max (max a x) := ih (max a x)
    _ = (x :: xs).foldl max a := rfl

lemma foldl_max_mem_le (l : List ℝ) :
    ∀ (a y : ℝ), y ∈ l → y ≤ l.foldl max a := by
  induction l with
  | nil => intro a y hy; simp at hy
  | cons x xs ih =>
    intro a y hy
    rcases List.mem_cons.mp hy with h | h
    · subst h
      calc y ≤ max a y := le_max_right _ _
      _ ≤ xs.foldl max (max a y) := foldl_max_init_le xs _
      _ = (y :: xs).foldl max a := rfl
    · exact ih (max a x) y h

lemma foldl_max_eq_init_or_mem (l : List ℝ) :
    ∀ a : ℝ, l.foldl max a = a ∨ l.foldl max a ∈ l := by
  induction l with
  | nil => intro a; left; rfl
  | cons x xs ih =>
    intro a
    rcases ih (max a x) with h | h
    · rcases max_choice a x with hc | hc
      · left
        calc (x :: xs).foldl max a = xs.foldl max (max a x) := rfl
        _ = max a x := h
        _ = a := hc
      · right
        apply List.mem_cons.mpr
        left
        calc (x :: xs).foldl max a = xs.foldl max (max a x) := rfl
        _ = max a x := h
        _ = x := hc
    · right
      exact List.mem_cons.mpr (Or.inr h)

lemma listMin_le {l : List ℝ} {y : ℝ} (hy : y ∈ l) : listMin l ≤ y := by
  cases l with
  | nil => simp at hy
  | cons x xs =>
    rcases List.mem_cons.mp hy with h | h
    · subst h
      exact foldl_min_le_init xs y
    · exact foldl_min_le_mem xs x y h

lemma le_listMax {l : List ℝ} {y : ℝ} (hy : y ∈ l) : y ≤ listMax l := by
  cases l with
  | nil => simp at hy
  | cons x xs =>
    rcases List.mem_cons.mp hy with h | h
    · subst h
      exact foldl_max_init_le xs y
    · exact foldl_max_mem_le xs x y h

lemma listMin_mem {l : List ℝ} (h : l ≠ []) : listMin l ∈ l := by
  cases l with
  | nil => exact absurd rfl h
  | cons x xs =>
    rcases foldl_min_eq_init_or_mem xs x with he | he
    · rw [listMin, he]
      exact List.mem_cons_self _ _
    · rw [listMin]
      exact List.mem_cons.mpr (Or.inr he)

lemma listMax_mem {l : List ℝ} (h : l ≠ []) : listMax l ∈ l := by
  cases l with
  | nil => exact absurd rfl h
  | cons x xs =>
    rcases foldl_max_eq_init_or_mem xs x with he | he
    · rw [listMax, he]
      exact List.mem_cons_self _ _
    · rw [listMax]
      exact List.mem_cons.mpr (Or.inr he)

/- Links between qualifying counts and the valid log list. -/

lemma parseOpenings_pos {raw : String} {n : ℕ}
    (h : parseOpenings raw = some n) : 0 < n := by
  unfold parseOpenings at h
  by_cases hc : (stripCommas raw).data ≠ [] ∧
      (stripCommas raw).data.all (fun c => c.isDigit) = true
  · rw [if_pos hc] at h
    by_cases hd : 0 < digitsToNat (stripCommas raw).data
    · rw [if_pos hd] at h
      cases h
      exact hd
    · rw [if_neg hd] at h
      cases h
  · rw [if_neg hc] at h
    cases h

lemma mem_validLogs_of_logVal {openings : List String} {raw : String} {x : ℝ}
    (hraw : raw ∈ openings) (h : logVal raw = some x) :
    x ∈ validLogs openings := by
  unfold validLogs logOpenings
  exact List.mem_filterMap.mpr
    ⟨logVal raw, List.mem_map_of_mem _ hraw, by simp [h]⟩

lemma log_mem_validLogs {openings : List String} {raw : String} {n : ℕ}
    (hraw : raw ∈ openings) (hp : parseOpenings raw = some n) :
    Real.log n ∈ validLogs openings :=
  mem_validLogs_of_logVal hraw (by simp [logVal, hp])

lemma mem_validLogs {openings : List String} {x : ℝ}
    (hx : x ∈ validLogs openings) :
    ∃ raw ∈ openings, ∃ n : ℕ, parseOpenings raw = some n ∧ x = Real.log n := by
  unfold validLogs logOpenings at hx
  rcases List.mem_filterMap.mp hx with ⟨o, ho, hid⟩
  rcases List.mem_map.mp ho with ⟨raw, hraw, hval⟩
  subst hval
  simp only [id] at hid
  unfold logVal at hid
  cases hp : parseOpenings raw with
  | none => rw [hp] at hid; cases hid
  | some n =>
    rw [hp] at hid
    simp at hid
    exact ⟨raw, hraw, n, hp, hid.symm⟩

lemma log_min_eq {openings : List String} (hne : validLogs openings ≠ []) :
    log_min openings = listMin (validLogs openings) := by
  unfold log_min
  rw [if_neg hne]

lemma log_range_eq_of_ne {openings : List String}
    (hne : validLogs openings ≠ [])
    (hMm : listMax (validLogs openings) ≠ listMin (validLogs openings)) :
    log_range openings
      = listMax (validLogs openings) - listMin (validLogs openings) := by
  unfold log_range
  rw [if_neg hne, if_pos hMm]

lemma log_range_eq_of_eq {openings : List String}
    (hne : validLogs openings ≠ [])
    (hMm : listMax (validLogs openings) = listMin (validLogs openings)) :
    log_range openings = 1 := by
  unfold log_range
  rw [if_neg hne, if_neg (not_not_intro hMm)]

/-- C6: in a pass with at least one qualifying count, every qualifying
normalized openings value lies in the unit interval; and when the
qualifying log values are not all equal, a record carrying the maximum
qualifying count is normalized to exactly 1 and a record carrying the
minimum qualifying count to exactly 0. -/
theorem c6_openings_normalization (openings : List String)
    (hne : validLogs openings ≠ []) :
    (∀ raw ∈ openings, ∀ y : ℝ, o_norm openings raw = some y →
        0 ≤ y ∧ y ≤ 1) ∧
    ((∃ a ∈ validLogs openings, ∃ b ∈ validLogs openings, a ≠ b) →
      (∀ raw ∈ openings, ∀ n : ℕ, parseOpenings raw = some n →
        (∀ raw2 ∈ openings, ∀ m : ℕ, parseOpenings raw2 = some m → m ≤ n) →
        o_norm openings raw = some 1) ∧
      (∀ raw ∈ openings, ∀ n : ℕ, parseOpenings raw = some n →
        (∀ raw2 ∈ openings, ∀ m : ℕ, parseOpenings raw2 = some m → n ≤ m) →
        o_norm openings raw = some 0)) := by
  have hminmem := listMin_mem hne
  have hmaxmem := listMax_mem hne
  have hmle : listMin (validLogs openings) ≤ listMax (validLogs openings) :=
    le_listMax hminmem
  constructor
  · intro raw hraw y hy
    unfold o_norm at hy
    cases hlv : logVal raw with
    | none => rw [hlv] at hy; cases hy
    | some x =>
      rw [hlv] at hy
      simp only [Option.map_some', Option.some.injEq] at hy
      have hxvl : x ∈ validLogs openings := mem_validLogs_of_logVal hraw hlv
      have hxm : listMin (validLogs openings) ≤ x := listMin_le hxvl
      have hxM : x ≤ listMax (validLogs openings) := le_listMax hxvl
      subst hy
      by_cases hMm : listMax (validLogs openings) = listMin (validLogs openings)
      · have hxeq : x = listMin (validLogs openings) :=
          le_antisymm (hMm ▸ hxM) hxm
        rw [log_min_eq hne, log_range_eq_of_eq hne hMm, hxeq]
        norm_num
      · have hlt : listMin (validLogs openings) < listMax (validLogs openings) :=
          lt_of_le_of_ne hmle (fun h => hMm h.symm)
        rw [log_min_eq hne, log_range_eq_of_ne hne hMm]
        constructor
        · apply div_nonneg <;> linarith
        · rw [div_le_one (by linarith)]
          linarith
  · rintro ⟨a, ha, b, hb, hab⟩
    have hMm : listMax (validLogs openings) ≠ listMin (validLogs openings) := by
      intro he
      apply hab
      have ha2 : a = listMin (validLogs openings) :=
        le_antisymm (he ▸ le_listMax ha) (listMin_le ha)
      have hb2 : b = listMin (validLogs openings) :=
        le_antisymm (he ▸ le_listMax hb) (listMin_le hb)
      rw [ha2, hb2]
    constructor
    · intro raw hraw n hn hmax
      have h1 : Real.log n ≤ listMax (validLogs openings) :=
        le_listMax (log_mem_validLogs hraw hn)
      have h2 : listMax (validLogs openings) ≤ Real.log n := by
        rcases mem_validLogs hmaxmem with ⟨raw2, hraw2, p, hp, hMe⟩
        have hpn : p ≤ n := hmax raw2 hraw2 p hp
        have hppos : 0 < p := parseOpenings_pos hp
        rw [hMe]
        apply Real.log_le_log
        · exact_mod_cast hppos
        · exact_mod_cast hpn
      have hMeq : Real.log n = listMax (validLogs openings) :=
        le_antisymm h1 h2
      have hlv : logVal raw = some (Real.log n) := by simp [logVal, hn]
      rw [o_norm, hlv]
      show some ((Real.log n - log_min openings) / log_range openings) = some 1
      rw [log_min_eq hne, log_range_eq_of_ne hne hMm, hMeq,
        div_self (sub_ne_zero.mpr hMm)]
    · intro raw hraw n hn hmin
      have h1 : listMin (validLogs openings) ≤ Real.log n :=
        listMin_le (log_mem_validLogs hraw hn)
      have h2 : Real.log n ≤ listMin (validLogs openings) := by
        rcases mem_validLogs hminmem with ⟨raw2, hraw2, p, hp, hMe⟩
        have hpn : n ≤ p := hmin raw2 hraw2 p hp
        have hnpos : 0 < n := parseOpenings_pos hn
        rw [hMe]
        apply Real.log_le_log
        · exact_mod_cast hnpos
        · exact_mod_cast hpn
      have hMeq : Real.log n = listMin (validLogs openings) :=
        le_antisymm h2 h1
      have hlv : logVal raw = some (Real.log n) := by simp [logVal, hn]
      rw [o_norm, hlv]
      show some ((Real.log n - log_min openings) / log_range openings) = some 0
      rw [log_min_eq hne, hMeq, sub_self, zero_div]

/-- C7: the openings normalizer never divides by zero: the denominator is
never 0; when at least one record qualifies and all qualifying log values
are equal the denominator defaults to 1 and every qualifying normalized
value is exactly 0; and when no record qualifies the minimum defaults to 0
and the denominator to 1, the normalizer staying total. -/
theorem c7_normalizer_safety (openings : List String) :
    log_range openings ≠ 0 ∧
    (validLogs openings ≠ [] →
      listMax (validLogs openings) = listMin (validLogs openings) →
      log_range openings = 1 ∧
      ∀ raw ∈ openings, ∀ y : ℝ, o_norm openings raw = some y → y = 0) ∧
    (validLogs openings = [] → log_min openings = 0 ∧ log_range openings = 1) := by
  refine ⟨?_, ?_, ?_⟩
  · by_cases hne : validLogs openings = []
    · unfold log_range
      rw [if_pos hne]
      norm_num
    · by_cases hMm : listMax (validLogs openings) = listMin (validLogs openings)
      · rw [log_range_eq_of_eq hne hMm]
        norm_num
      · rw [log_range_eq_of_ne hne hMm]
        exact sub_ne_zero.mpr hMm
  · intro hne hMm
    refine ⟨log_range_eq_of_eq hne hMm, ?_⟩
    intro raw hraw y hy
    unfold o_norm at hy
    cases hlv : logVal raw with
    | none => rw [hlv] at hy; cases hy
    | some x =>
      rw [hlv] at hy
      simp only [Option.map_some', Option.some.injEq] at hy
      have hxvl := mem_validLogs_of_logVal hraw hlv
      have hxeq : x = listMin (validLogs openings) :=
        le_antisymm (hMm ▸ le_listMax hxvl) (listMin_le hxvl)
      subst hy
      rw [log_min_eq hne, hxeq, sub_self, zero_div]
  · intro hempty
    unfold log_min log_range
    rw [if_pos hempty, if_pos hempty]
    exact ⟨rfl, rfl⟩

/-- C6 witness: in the pass with counts 2 and 4 the record with count 4 is
normalized to exactly 1. -/
theorem c6_openings_normalization_witness :
    o_norm ["2", "4"] "4" = some 1 := by
  have hp2 : parseOpenings "2" = some 2 := rfl
  have hp4 : parseOpenings "4" = some 4 := rfl
  have heval : validLogs ["2", "4"] = [Real.log 2, Real.log 4] := by
    simp [validLogs, logOpenings, logVal, hp2, hp4]
  have hne : validLogs ["2", "4"] ≠ [] := by
    rw [heval]
    simp
  have hlog24 : Real.log 2 ≠ Real.log 4 :=
    ne_of_lt (Real.log_lt_log (by norm_num) (by norm_num))
  refine ((c6_openings_normalization ["2", "4"] hne).2
    ⟨Real.log 2, by rw [heval]; simp, Real.log 4, by rw [heval]; simp, hlog24⟩).1
    "4" (by simp) 4 hp4 ?_
  intro raw2 hraw2 m hm
  rcases List.mem_cons.mp hraw2 with h | h
  · subst h
    rw [hp2] at hm
    cases hm
    norm_num
  · simp only [List.mem_singleton] at h
    subst h
    rw [hp4] at hm
    cases hm
    norm_num

/-- C7 witness: the pass with two equal counts has denominator 1 and every
qualifying value normalized to 0; the pass with no qualifying count has
minimum 0 and denominator 1. -/
theorem c7_normalizer_safety_witness :
    (log_range ["5", "5"] = 1 ∧
      ∀ raw ∈ ["5", "5"], ∀ y : ℝ, o_norm ["5", "5"] raw = some y → y = 0) ∧
    (log_min ["x"] = 0 ∧ log_range ["x"] = 1) := by
  have hp5 : parseOpenings "5" = some 5 := rfl
  have heval : validLogs ["5", "5"] = [Real.log 5, Real.log 5] := by
    simp [validLogs, logOpenings, logVal, hp5]
  have hne : validLogs ["5", "5"] ≠ [] := by
    rw [heval]
    simp
  have hMm : listMax (validLogs ["5", "5"]) = listMin (validLogs ["5", "5"]) := by
    rw [heval]
    simp [listMax, listMin]
  have hempty : validLogs ["x"] = [] := by
    simp [validLogs, logOpenings, logVal, show parseOpenings "x" = none from rfl]
  exact ⟨(c7_normalizer_safety ["5", "5"]).2.1 hne hMm,
    (c7_normalizer_safety ["x"]).2.2 hempty⟩

/- ── Cache-backed enrichment fetcher (enrich_onet.py, main) ── -/

/-- The three enrichment fields cached per record. -/
structure Enrichment where
  median_wage : String
  projected_growth : String
  projected_job_openings : String
deriving DecidableEq, Repr

/-- The record written on a failed fetch (lines 131-137): all three fields
empty. -/
def emptyEnrichment : Enrichment := ⟨"", "", ""⟩

/-- An input row of the enrichment pass: record identifier and source URL. -/
structure InRow where
  code : String
  url : String
deriving DecidableEq, Repr

/-- The body of the fetch loop (lines 118-141) for one row: a row whose
code is already cached is skipped without fetching; otherwise the fetch
collaborator is invoked once, its data on success or the empty record on a
raised error is stored under the code, and the fetch is counted. -/
def enrichBody (fetch : String → Option Enrichment)
    (cache : List (String × Enrichment)) (r : InRow) :
    List (String × Enrichment) × Bool :=
  if (cache.lookup r.code).isSome then (cache, false)
  else
    match fetch r.url with
    | some d => ((r.code, d) :: cache, true)
    | none => ((r.code, emptyEnrichment) :: cache, true)

/-- The fetch loop over all rows, threading the cache and collecting the
codes for which the collaborator was invoked, in order. -/
def enrichPass (fetch : String → Option Enrichment)
    (cache : List (String × Enrichment)) :
    List InRow → List (String × Enrichment) × List String
  | [] => (cache, [])
  | r :: rs =>
    match enrichBody fetch cache r with
    | (cache2, fetched) =>
      match enrichPass fetch cache2 rs with
      | (cacheEnd, codes) => (cacheEnd, (if fetched then [r.code] else []) ++ codes)

lemma enrichPass_nil (fetch : String → Option Enrichment)
    (cache : List (String × Enrichment)) :
    enrichPass fetch cache [] = (cache, []) := rfl

lemma enrichPass_cons (fetch : String → Option Enrichment)
    (cache : List (String × Enrichment)) (r : InRow) (rs : List InRow) :
    enrichPass fetch cache (r :: rs)
      = ((enrichPass fetch (enrichBody fetch cache r).1 rs).1,
         (if (enrichBody fetch cache r).2 then [r.code] else [])
           ++ (enrichPass fetch (enrichBody fetch cache r).1 rs).2) := rfl

/-- The loop body on an uncached code whose fetch raises stores the empty
record and counts one fetch, exactly like a success stores its data. -/
lemma enrichBody_error (fetch : String → Option Enrichment)
    (cache : List (String × Enrichment)) (r : InRow)
    (hc : cache.lookup r.code = none) (hf : fetch r.url = none) :
    enrichBody fetch cache r = ((r.code, emptyEnrichment) :: cache, true) := by
  unfold enrichBody
  rw [if_neg (by simp [hc]), hf]

lemma enrichBody_ok (fetch : String → Option Enrichment)
    (cache : List (String × Enrichment)) (r : InRow) (d : Enrichment)
    (hc : cache.lookup r.code = none) (hf : fetch r.url = some d) :
    enrichBody fetch cache r = ((r.code, d) :: cache, true) := by
  unfold enrichBody
  rw [if_neg (by simp [hc]), hf]

/-- The loop body never removes or overwrites an existing cache entry. -/
lemma enrichBody_preserves (fetch : String → Option Enrichment)
    (cache : List (String × Enrichment)) (r : InRow) {k : String}
    {e : Enrichment} (h : cache.lookup k = some e) :
    ((enrichBody fetch cache r).1).lookup k = some e := by
  unfold enrichBody
  by_cases hc : (cache.lookup r.code).isSome
  · rw [if_pos hc]
    exact h
  · rw [if_neg hc]
    have hk : (k == r.code) = false := by
      apply beq_eq_false_iff_ne.mpr
      intro he
      rw [← he, h] at hc
      exact hc rfl
    cases hf : fetch r.url <;> simp [List.lookup, hk, h]

/-- A pass never removes or overwrites an existing cache entry. -/
lemma enrichPass_preserves (fetch : String → Option Enrichment) :
    ∀ (rows : List InRow) (cache : List (String × Enrichment))
      {k : String} {e : Enrichment}, cache.lookup k = some e →
      ((enrichPass fetch cache rows).1).lookup k = some e := by
  intro rows
  induction rows with
  | nil => intro cache k e h; exact h
  | cons r rs ih =>
    intro cache k e h
    rw [enrichPass_cons]
    exact ih _ (enrichBody_preserves fetch cache r h)

/-- A code cached at the start of a pass is never fetched during the pass. -/
lemma not_fetched_of_cached (fetch : String → Option Enrichment) :
    ∀ (rows : List InRow) (cache : List (String × Enrichment)) {k : String},
      (cache.lookup k).isSome → k ∉ (enrichPass fetch cache rows).2 := by
  intro rows
  induction rows with
  | nil => intro cache k _ h; simp [enrichPass_nil] at h
  | cons r rs ih =>
    intro cache k hk hmem
    rw [enrichPass_cons] at hmem
    rcases List.mem_append.mp hmem with h1 | h2
    · by_cases hb : (enrichBody fetch cache r).2
      · rw [if_pos hb] at h1
        simp only [List.mem_singleton] at h1
        subst h1
        unfold enrichBody at hb
        by_cases hc : (cache.lookup r.code).isSome
        · rw [if_pos hc] at hb
          simp at hb
        · exact hc hk
      · rw [if_neg hb] at h1
        simp at h1
    · rcases Option.isSome_iff_exists.mp hk with ⟨e, he⟩
      exact ih (enrichBody fetch cache r).1
        (Option.isSome_iff_exists.mpr ⟨e, enrichBody_preserves fetch cache r he⟩) h2

/-- A code fetched during a pass is cached when the pass ends. -/
lemma fetched_cached (fetch : String → Option Enrichment) :
    ∀ (rows : List InRow) (cache : List (String × Enrichment)) {k : String},
      k ∈ (enrichPass fetch cache rows).2 →
      (((enrichPass fetch cache rows).1).lookup k).isSome := by
  intro rows
  induction rows with
  | nil => intro cache k h; simp [enrichPass_nil] at h
  | cons r rs ih =>
    intro cache k hmem
    rw [enrichPass_cons] at hmem
    rw [enrichPass_cons]
    rcases List.mem_append.mp hmem with h1 | h2
    · by_cases hb : (enrichBody fetch cache r).2
      · rw [if_pos hb] at h1
        simp only [List.mem_singleton] at h1
        subst h1
        unfold enrichBody at hb ⊢
        by_cases hc : (cache.lookup r.code).isSome
        · rw [if_pos hc] at hb
          simp at hb
        · rw [if_neg hc] at hb ⊢
          cases hf : fetch r.url with
          | none =>
            simp only [hf]
            have hl : ((r.code, emptyEnrichment) :: cache).lookup r.code
                = some emptyEnrichment := by simp [List.lookup]
            exact Option.isSome_iff_exists.mpr
              ⟨emptyEnrichment, enrichPass_preserves fetch rs _ hl⟩
          | some d =>
            simp only [hf]
            have hl : ((r.code, d) :: cache).lookup r.code = some d := by
              simp [List.lookup]
            exact Option.isSome_iff_exists.mpr
              ⟨d, enrichPass_preserves fetch rs _ hl⟩
      · rw [if_neg hb] at h1
        simp at h1
    · exact ih _ h2

/-- Within one pass a code is fetched at most once. -/
lemma count_fetched_le_one (fetch : String → Option Enrichment) :
    ∀ (rows : List InRow) (cache : List (String × Enrichment)) (k : String),
      ((enrichPass fetch cache rows).2.count k) ≤ 1 := by
  intro rows
  induction rows with
  | nil => intro cache k; simp [enrichPass_nil]
  | cons r rs ih =>
    intro cache k
    rw [enrichPass_cons, List.count_append]
    by_cases hb : (enrichBody fetch cache r).2
    · rw [if_pos hb]
      by_cases hk : k = r.code
      · subst hk
        have hnotin : r.code ∉ (enrichPass fetch (enrichBody fetch cache r).1 rs).2 := by
          apply not_fetched_of_cached
          unfold enrichBody at hb ⊢
          by_cases hc : (cache.lookup r.code).isSome
          · rw [if_pos hc] at hb
            simp at hb
          · rw [if_neg hc] at hb ⊢
            cases hf : fetch r.url <;>
              · simp only [hf]
                simp [List.lookup]
        rw [List.count_eq_zero.mpr hnotin]
        simp [List.count_singleton]
      · have : ([r.code].count k) = 0 :=
          List.count_eq_zero.mpr (by simp [hk])
        rw [this]
        simpa using ih (enrichBody fetch cache r).1 k
    · rw [if_neg hb]
      simpa using ih (enrichBody fetch cache r).1 k

/-- C10: a record whose fetch raises is cached with the three enrichment
fields empty exactly as a successful fetch caches its data; a cached entry
survives every later pass unchanged and its code is never fetched again;
and across two consecutive passes sharing the cache a code is fetched at
most once, so a failed fetch is never retried and the empty fields are
permanent. -/
theorem c10_failed_fetch_permanent
    (fetch fetch2 : String → Option Enrichment)
    (cache : List (String × Enrichment)) (r : InRow)
    (rows rows2 : List InRow) (k : String) :
    (cache.lookup r.code = none → fetch r.url = none →
      enrichBody fetch cache r = ((r.code, emptyEnrichment) :: cache, true)) ∧
    (∀ e : Enrichment, cache.lookup k = some e →
      ((enrichPass fetch cache rows).1).lookup k = some e ∧
      k ∉ (enrichPass fetch cache rows).2) ∧
    ((enrichPass fetch cache rows).2.count k
      + (enrichPass fetch2 ((enrichPass fetch cache rows).1) rows2).2.count k
      ≤ 1) ∧
    (cache.lookup r.code = none → fetch r.url = none →
      ((enrichPass fetch2 ((enrichBody fetch cache r).1) rows2).1).lookup r.code
        = some emptyEnrichment) := by
  refine ⟨enrichBody_error fetch cache r, ?_, ?_, ?_⟩
  · intro e he
    exact ⟨enrichPass_preserves fetch rows cache he,
      not_fetched_of_cached fetch rows cache
        (Option.isSome_iff_exists.mpr ⟨e, he⟩)⟩
  · by_cases hmem : k ∈ (enrichPass fetch cache rows).2
    · have hcached := fetched_cached fetch rows cache hmem
      have hzero : (enrichPass fetch2 ((enrichPass fetch cache rows).1)
          rows2).2.count k = 0 :=
        List.count_eq_zero.mpr
          (not_fetched_of_cached fetch2 rows2 _ hcached)
      rw [hzero]
      simpa using count_fetched_le_one fetch rows cache k
    · have hzero : (enrichPass fetch cache rows).2.count k = 0 :=
        List.count_eq_zero.mpr hmem
      rw [hzero]
      simpa using count_fetched_le_one fetch2 rows2 _ k
  · intro hc hf
    rw [enrichBody_error fetch cache r hc hf]
    apply enrichPass_preserves
    simp [List.lookup]

/-- C10 witness: with a collaborator that always raises, the single record
is cached empty, stays cached empty through a later pass with a succeeding
collaborator, and is fetched at most once over both passes. -/
theorem c10_failed_fetch_permanent_witness :
    enrichBody (fun _ => none) [] ⟨"C", "u"⟩
        = (("C", emptyEnrichment) :: [], true) ∧
    ((enrichPass (fun _ => some ⟨"w", "g", "o"⟩)
        ((enrichBody (fun _ => none) [] ⟨"C", "u"⟩).1) [⟨"C", "u"⟩]).1).lookup "C"
        = some emptyEnrichment ∧
    ((enrichPass (fun _ => none) [] [⟨"C", "u"⟩, ⟨"C", "u"⟩]).2.count "C"
      + (enrichPass (fun _ => some ⟨"w", "g", "o"⟩)
          ((enrichPass (fun _ => none) [] [⟨"C", "u"⟩, ⟨"C", "u"⟩]).1)
          [⟨"C", "u"⟩]).2.count "C"
      ≤ 1) := by
  have h := c10_failed_fetch_permanent (fun _ => none)
    (fun _ => some ⟨"w", "g", "o"⟩) [] ⟨"C", "u"⟩
    [⟨"C", "u"⟩, ⟨"C", "u"⟩] [⟨"C", "u"⟩] "C"
  exact ⟨h.1 rfl rfl, h.2.2.2 rfl rfl, h.2.2.1⟩
